import Mathlib

/-!
# Verification of the Melondy Karplus–Strong synthesis core

Shallow embedding of `src/melondy/synth/synthesis.py` (the `Synthesiser`
dataclass: `strum_strings`, `_vibrate` with its `feedback_loop` generator, and
`_overlay`).  Audio samples are modelled as rationals; Python's `round`
(half-to-even) is modelled exactly; the collaborators that are not part of the
repository snapshot (`temporal.py`, `burst.py`, `processing.py`,
`instrument.py`, `stroke.py`, `chord.py`) are modelled from the spec's
contracts for them.  Fallible Python computations are embedded in `Except`:
raised exceptions become `.error` values, and the one reachable
non-terminating path (numpy's `fromiter` with a negative `count` reading an
infinite generator) is flagged by an explicit `.divergence` outcome.
-/

namespace Melondy

/-- Faults a synthesis call can hit: Python `AssertionError` (the damping
assert), `ZeroDivisionError` (`sampling_rate / 0`), `ValueError` (numpy:
negative dimensions, iterator too short, broadcast mismatch, reduction of an
empty array, `max()` of an empty sequence), and an explicit marker for
non-termination (numpy `fromiter` with negative count consuming the infinite
feedback generator). -/
inductive Fault where
  | assertionError
  | zeroDivisionError
  | valueError
  | divergence
deriving DecidableEq, Repr

/-- Python's built-in `round`: round half to even (banker's rounding),
evaluated here on the exact rational value. -/
def pyRound (q : ℚ) : ℤ :=
  if q - ⌊q⌋ < 1/2 then ⌊q⌋
  else if 1/2 < q - ⌊q⌋ then ⌊q⌋ + 1
  else if 2 ∣ ⌊q⌋ then ⌊q⌋ else ⌊q⌋ + 1

/-- Modelled from the spec: `temporal.Time` is missing from the snapshot; the
spec defines it as "an abstract time quantity convertible to an integer sample
count at a given sampling rate (`samples = round(duration * sampling_rate)`)". -/
structure Time where
  seconds : ℚ
deriving DecidableEq

/-- Modelled from the spec: `samples = round(duration * sampling_rate)`. -/
def Time.get_num_samples (t : Time) (sampling_rate : ℕ) : ℤ :=
  pyRound (t.seconds * sampling_rate)

/-- Modelled from the spec: `chord.Chord` is an external collaborator
("chord-to-pitch resolution is out of scope"); only its identity matters here. -/
structure Chord where
  id : ℕ
deriving DecidableEq

/-- Modelled from the spec: a `Pitch` supplies `frequency: Hertz`; its ordering
position within a stroke is given by its list position. -/
structure Pitch where
  frequency : ℚ
deriving DecidableEq

/-- Modelled from the spec: stroke `Direction` is UP or DOWN. -/
inductive Direction where
  | UP
  | DOWN
deriving DecidableEq

/-- Modelled from the spec: a `Velocity` is a direction plus a delay duration
between consecutive string onsets. -/
structure Velocity where
  direction : Direction
  delay : Time

/-- Modelled from the spec: `instrument.PluckedStringInstrument` exposes
`damping`, a default `vibration` duration, and `upstroke` / `downstroke`
functions from a chord to an ordered sequence of pitches. -/
structure PluckedStringInstrument where
  damping : ℚ
  vibration : Time
  upstroke : Chord → List Pitch
  downstroke : Chord → List Pitch

/-- The `Synthesiser` dataclass.  Modelled from the spec where the snapshot is
silent: the burst generator is "deterministic given its inputs and internal
seed policy" and fills the delay line with exactly `num_samples` samples, so it
is embedded as a function field together with its length contract. -/
structure Synthesiser where
  instrument : PluckedStringInstrument
  burst_generator : ℕ → ℕ → List ℚ
  burst_len : ∀ n sr, (burst_generator n sr).length = n
  sampling_rate : ℕ := 44100

/-- Sum of a list divided by its length: `np.mean`. -/
def npMean (xs : List ℚ) : ℚ := xs.sum / xs.length

/-- Peak magnitude `np.abs(xs).max()` (`0` for the empty list, which the real
reduction rejects; `normalise` below raises in that case before using it). -/
def peakAbs (xs : List ℚ) : ℚ := (xs.map (fun q => |q|)).foldr max 0

/-- Modelled from the spec: `processing.remove_dc` is an external contract,
"remove its DC bias (subtract mean)": `x - np.mean(x)`. -/
def remove_dc (xs : List ℚ) : List ℚ := xs.map (· - npMean xs)

/-- Modelled from the spec: `processing.normalise` is an external contract,
"normalize its amplitude to a canonical range (peak == 1)": divide by the peak
magnitude, `x / np.abs(x).max()`; on an empty array the numpy reduction raises
`ValueError` ("zero-size array to reduction operation"). -/
def normalise (xs : List ℚ) : Except Fault (List ℚ) :=
  if xs = [] then .error .valueError else .ok (xs.map (· / peakAbs xs))

/-- One pass of the `feedback_loop` generator of `Synthesiser._vibrate`,
pulled `n` times: the buffer (a ring of `L` live cells, embedded as a function
from index to value) yields `buffer[i]`, then is updated in place with
`buffer[i] = (current_sample + next_sample) * damping` where
`next_sample = buffer[(i + 1) % buffer.size]`, and the cursor moves to the
next element of `cycle(range(L))`. -/
def ksStream (L : ℕ) (buf : ℕ → ℚ) (damping : ℚ) (i : ℕ) : ℕ → List ℚ
  | 0 => []
  | n + 1 =>
    let current_sample := buf i
    let next_sample := buf ((i + 1) % L)
    current_sample ::
      ksStream L (fun m => if m = i then (current_sample + next_sample) * damping else buf m)
        damping ((i + 1) % L) n

/-- The raw (pre-post-processing) output of `_vibrate`'s feedback loop: the
delay line is `burst_generator(round(sampling_rate / frequency), sampling_rate)`
and the recurrence is pulled `n` times starting at index `0`. -/
def Synthesiser.feedback_raw (syn : Synthesiser) (frequency : ℚ) (damping : ℚ) (n : ℕ) :
    List ℚ :=
  let L := (pyRound ((syn.sampling_rate : ℚ) / frequency)).toNat
  let buffer := syn.burst_generator L syn.sampling_rate
  ksStream L (fun m => buffer.getD m 0) damping 0 n

/-- `Synthesiser._vibrate`.  Control flow of the source, in evaluation order:
the damping assert runs first; `np.fromiter(feedback_loop(), np.float64, N)`
with `N = duration.get_num_samples(sampling_rate)` then drives the (lazy)
generator: with `N = 0` the generator body never runs; otherwise the body
computes `round(sampling_rate / frequency)` (raising `ZeroDivisionError` for
`frequency = 0`; modelled from the spec, a negative sample count makes the
missing `WhiteNoise` burst source raise numpy's negative-dimensions
`ValueError`); an empty delay line ends the generator at once, so `fromiter`
raises "iterator too short" for `N > 0` and yields an empty array for `N < 0`
(negative count means read-all); a non-empty delay line with `N < 0` makes
read-all consume the infinite generator forever (`divergence`).  The raw array
is then passed through `remove_dc` and `normalise`, in that order. -/
def Synthesiser.«_vibrate» (syn : Synthesiser) (frequency : ℚ) (duration : Time)
    (damping : ℚ) : Except Fault (List ℚ) :=
  if ¬(0 < damping ∧ damping ≤ 1/2) then .error .assertionError
  else
    let N : ℤ := duration.get_num_samples syn.sampling_rate
    if N = 0 then normalise (remove_dc [])
    else if frequency = 0 then .error .zeroDivisionError
    else
      let L : ℤ := pyRound ((syn.sampling_rate : ℚ) / frequency)
      if L < 0 then .error .valueError
      else if L = 0 then
        if N < 0 then normalise (remove_dc []) else .error .valueError
      else if N < 0 then .error .divergence
      else normalise (remove_dc (syn.feedback_raw frequency damping N.toNat))

/-- Python slice-index normalization for a sequence of length `n`: a negative
index counts from the end and is clamped at `0`; a nonnegative one is clamped
at `n`. -/
def normIdx (i : ℤ) (n : ℕ) : ℕ :=
  if i < 0 then (i + n).toNat else min i.toNat n

/-- numpy's `samples[a:b] += sound` on a 1-D float array: the slice bounds are
normalized Python-style; the addition requires `sound` to have exactly the
slice's length, or length `1` (which broadcasts over the slice); any other
mismatch raises `ValueError` (operands could not be broadcast). -/
def pySliceAdd (samples : List ℚ) (a b : ℤ) (sound : List ℚ) :
    Except Fault (List ℚ) :=
  if sound.length = normIdx b samples.length - normIdx a samples.length then
    .ok <| (List.range samples.length).map fun j =>
      samples.getD j 0 +
        if normIdx a samples.length ≤ j ∧ j < normIdx b samples.length then
          sound.getD (j - normIdx a samples.length) 0
        else 0
  else if sound.length = 1 then
    .ok <| (List.range samples.length).map fun j =>
      samples.getD j 0 +
        if normIdx a samples.length ≤ j ∧ j < normIdx b samples.length then
          sound.getD 0 0
        else 0
  else .error .valueError

/-- Python's `max()` over a materialized sequence: raises `ValueError` on an
empty one (`none` here), else folds binary `max` over the items. -/
def pyMax : List ℤ → Option ℤ
  | [] => none
  | x :: xs => some (xs.foldl max x)

/-- `Synthesiser._overlay`: `d = delay.get_num_samples(...)`,
`num_samples = max(i * d + sound.size for i, sound in enumerate(sounds))`
(raising on an empty `sounds`), an all-zero buffer `np.zeros(num_samples)`
(numpy rejects a negative size), then for each `i`,
`samples[i*d : i*d + sound.size] += sound`. -/
def Synthesiser.«_overlay» (syn : Synthesiser) (sounds : List (List ℚ)) (delay : Time) :
    Except Fault (List ℚ) :=
  match pyMax (sounds.enum.map fun p =>
      (p.1 : ℤ) * delay.get_num_samples syn.sampling_rate + (p.2.length : ℤ)) with
  | none => .error .valueError
  | some num_samples =>
    if num_samples < 0 then .error .valueError
    else
      sounds.enum.foldlM
        (fun samples p =>
          pySliceAdd samples ((p.1 : ℤ) * delay.get_num_samples syn.sampling_rate)
            ((p.1 : ℤ) * delay.get_num_samples syn.sampling_rate + (p.2.length : ℤ)) p.2)
        (List.replicate num_samples.toNat 0)

/-- `Synthesiser.strum_strings`: resolve the default vibration duration, pick
the stroke function by direction, synthesize one waveform per pitch in stroke
order (`tuple(self._vibrate(...) for pitch in stroke(chord))`, so the first
raised fault propagates), and overlay them with `velocity.delay`. -/
def Synthesiser.strum_strings (syn : Synthesiser) (chord : Chord) (velocity : Velocity)
    (vibration : Option Time := none) : Except Fault (List ℚ) :=
  let vib := match vibration with
    | none => syn.instrument.vibration
    | some v => v
  let stroke := match velocity.direction with
    | .UP => syn.instrument.upstroke
    | .DOWN => syn.instrument.downstroke
  do
    let sounds ← (stroke chord).mapM fun pitch =>
      syn.«_vibrate» pitch.frequency vib syn.instrument.damping
    syn.«_overlay» sounds velocity.delay

/-- The delay-line recurrence exactly as the spec words it, for comparison
with the embedded generator: after `j` steps the moving index is `i = j % L`,
and step `j` overwrites `buffer[i]` with
`damping * (buffer[i] + buffer[(i + 1) mod L])`. -/
def ksSpecBuf (L : ℕ) (b0 : ℕ → ℚ) (k : ℚ) : ℕ → ℕ → ℚ
  | 0 => b0
  | j + 1 => fun m =>
    if m = j % L then
      k * (ksSpecBuf L b0 k j (j % L) + ksSpecBuf L b0 k j ((j % L + 1) % L))
    else ksSpecBuf L b0 k j m

/-- The sample the spec's recurrence emits at step `j`: the current buffer
value at index `j % L`, read before the overwrite. -/
def ksSpecOut (L : ℕ) (b0 : ℕ → ℚ) (k : ℚ) (j : ℕ) : ℚ :=
  ksSpecBuf L b0 k j (j % L)

/-- The contribution of string `i` (0-indexed in stroke order) to output
sample `j` in the spec's overlay formula: its own sample `j - i*d` where its
span `[i*d, i*d + len)` covers `j`, and `0` elsewhere. -/
def stringContrib (d i : ℕ) (s : List ℚ) (j : ℕ) : ℚ :=
  if i * d ≤ j ∧ j < i * d + s.length then s.getD (j - i * d) 0 else 0

/-- The spec's additive-overlay formula for output sample `j`: the sum over
all strings of their contributions at `j`. -/
def overlayAt (sounds : List (List ℚ)) (d : ℕ) (j : ℕ) : ℚ :=
  (sounds.enum.map fun p => stringContrib d p.1 p.2 j).sum

/-! ## Concrete instances used to instantiate the theorems -/

/-- A concrete plucked-string instrument, mirroring the spec's worked example
(A-major-like pitches, damping `0.5`, default vibration `0.01 s`). -/
def demoInstrument : PluckedStringInstrument where
  damping := 1/2
  vibration := ⟨1/100⟩
  upstroke := fun _ => [⟨220⟩, ⟨277⟩, ⟨330⟩]
  downstroke := fun _ => [⟨330⟩, ⟨277⟩, ⟨220⟩]

/-- An instrument whose strokes resolve every chord to zero pitches. -/
def silentInstrument : PluckedStringInstrument where
  damping := 1/2
  vibration := ⟨1/100⟩
  upstroke := fun _ => []
  downstroke := fun _ => []

/-- A concrete deterministic burst source: a constant unit burst. -/
def demoSynth : Synthesiser where
  instrument := demoInstrument
  burst_generator := fun n _ => List.replicate n 1
  burst_len := fun n _ => List.length_replicate n 1
  sampling_rate := 44100

/-- The constant-burst synthesiser built over `silentInstrument`. -/
def silentSynth : Synthesiser where
  instrument := silentInstrument
  burst_generator := fun n _ => List.replicate n 1
  burst_len := fun n _ => List.length_replicate n 1
  sampling_rate := 44100

/-! ## Basic lemmas about the embedded operations -/

lemma remove_dc_length (xs : List ℚ) : (remove_dc xs).length = xs.length := by
  simp [remove_dc]

lemma remove_dc_nil : remove_dc [] = [] := rfl

lemma normalise_ok_of_ne_nil {xs : List ℚ} (h : xs ≠ []) :
    normalise xs = .ok (xs.map (· / peakAbs xs)) := by
  simp [normalise, h]

lemma normalise_ne_assertionError (xs : List ℚ) :
    normalise xs ≠ .error .assertionError := by
  unfold normalise
  split <;> simp

lemma ksStream_length (L : ℕ) (damping : ℚ) :
    ∀ (n : ℕ) (buf : ℕ → ℚ) (i : ℕ), (ksStream L buf damping i n).length = n := by
  intro n
  induction n with
  | zero => intro buf i; rfl
  | succ n ih => intro buf i; simp [ksStream, ih]

lemma feedback_raw_length (syn : Synthesiser) (frequency damping : ℚ) (n : ℕ) :
    (syn.feedback_raw frequency damping n).length = n := by
  unfold Synthesiser.feedback_raw
  exact ksStream_length _ _ _ _ _

/-! ## C3: the damping precondition -/

/-- C3: for every damping `k` with `k ≤ 0` or `k > 0.5`, `_vibrate` fails with
the assert (`AssertionError`), raised before any output samples are produced;
for every `k` with `0 < k ≤ 0.5` the check passes (the call never reports the
assertion fault, whatever else happens). -/
theorem vibrate_damping_contract (syn : Synthesiser) (frequency : ℚ) (duration : Time)
    (damping : ℚ) :
    ((damping ≤ 0 ∨ 1/2 < damping) →
      syn.«_vibrate» frequency duration damping = .error .assertionError) ∧
    (0 < damping → damping ≤ 1/2 →
      syn.«_vibrate» frequency duration damping ≠ .error .assertionError) := by
  constructor
  · intro h
    unfold Synthesiser.«_vibrate»
    rw [if_pos]
    rintro ⟨h1, h2⟩
    rcases h with h | h
    · exact absurd h1 (not_lt.mpr h)
    · exact absurd h2 (not_le.mpr h)
  · intro h1 h2
    unfold Synthesiser.«_vibrate»
    rw [if_neg (not_not_intro ⟨h1, h2⟩)]
    dsimp only
    split
    · exact normalise_ne_assertionError _
    · split
      · simp
      · split
        · simp
        · split
          · split
            · exact normalise_ne_assertionError _
            · simp
          · split
            · simp
            · exact normalise_ne_assertionError _

/-- Witness for C3 at the constant-burst synthesiser: damping `3/5 > 0.5` hits
the assert; damping `1/2` passes it. -/
theorem vibrate_damping_contract_witness :
    demoSynth.«_vibrate» 220 ⟨1/100⟩ (3/5) = .error .assertionError ∧
    demoSynth.«_vibrate» 220 ⟨1/100⟩ (1/2) ≠ .error .assertionError :=
  ⟨(vibrate_damping_contract demoSynth 220 ⟨1/100⟩ (3/5)).1 (Or.inr (by norm_num)),
   (vibrate_damping_contract demoSynth 220 ⟨1/100⟩ (1/2)).2 (by norm_num) (by norm_num)⟩

/-! ## C6: what actually happens on non-positive frequency / duration -/

/-- C6 evaluation: at the failing inputs the code does not report an
invalid-argument condition.  A negative duration (`-1 s`, sample count
`-44100`) makes `np.fromiter` (negative count = read-all) consume the infinite
feedback generator forever; frequency `0` raises `ZeroDivisionError` only once
the lazy generator body runs; a negative frequency reaches the burst source
with a negative sample count (numpy `ValueError`).  None of these is the
fail-fast invalid-argument check the spec demands. -/
theorem vibrate_invalid_inputs_behaviour :
    demoSynth.«_vibrate» 220 ⟨-1⟩ (1/2) = .error .divergence ∧
    demoSynth.«_vibrate» 0 ⟨1/100⟩ (1/2) = .error .zeroDivisionError ∧
    demoSynth.«_vibrate» (-220) ⟨1/100⟩ (1/2) = .error .valueError := by
  refine ⟨?_, ?_, ?_⟩ <;>
    · unfold Synthesiser.«_vibrate»
      norm_num [Time.get_num_samples, pyRound, demoSynth]

/-! ## C7: a chord with zero pitches -/

/-- C7 evaluation: a chord that resolves to zero pitches hands `_overlay` an
empty tuple, and Python's `max()` over the empty generator raises `ValueError`
instead of falling through to an empty waveform. -/
theorem strum_strings_empty_chord_raises :
    silentSynth.strum_strings ⟨0⟩ ⟨.UP, ⟨1/50⟩⟩ none = .error .valueError ∧
    silentSynth.«_overlay» [] ⟨1/50⟩ = .error .valueError := by
  exact ⟨rfl, rfl⟩

/-! ## C9: determinism of the pipeline -/

/-- C9: the pipeline is a deterministic function of its inputs: `_vibrate`
depends only on the burst source and sampling rate (not on the instrument),
`_overlay` only on the sampling rate, and `strum_strings` on instrument, burst
source and sampling rate — synthesisers agreeing on those fields give
bit-identical waveforms for identical call arguments. -/
theorem synthesis_deterministic (s1 s2 : Synthesiser) :
    (s1.burst_generator = s2.burst_generator → s1.sampling_rate = s2.sampling_rate →
      ∀ f d k, s1.«_vibrate» f d k = s2.«_vibrate» f d k) ∧
    (s1.sampling_rate = s2.sampling_rate →
      ∀ sounds delay, s1.«_overlay» sounds delay = s2.«_overlay» sounds delay) ∧
    (s1.instrument = s2.instrument → s1.burst_generator = s2.burst_generator →
      s1.sampling_rate = s2.sampling_rate →
      ∀ c v vib, s1.strum_strings c v vib = s2.strum_strings c v vib) := by
  obtain ⟨i1, b1, h1, r1⟩ := s1
  obtain ⟨i2, b2, h2, r2⟩ := s2
  dsimp only
  refine ⟨?_, ?_, ?_⟩
  · rintro rfl rfl f d k; rfl
  · rintro rfl sounds delay; rfl
  · rintro rfl rfl rfl c v vib; rfl

/-- Witness for C9: two synthesisers sharing burst source and sampling rate
but with different instruments produce the same `_vibrate` output, and equal
synthesisers agree everywhere. -/
theorem synthesis_deterministic_witness :
    demoSynth.«_vibrate» 220 ⟨1/100⟩ (1/2) = silentSynth.«_vibrate» 220 ⟨1/100⟩ (1/2) ∧
    demoSynth.strum_strings ⟨0⟩ ⟨.UP, ⟨1/50⟩⟩ none =
      demoSynth.strum_strings ⟨0⟩ ⟨.UP, ⟨1/50⟩⟩ none :=
  ⟨(synthesis_deterministic demoSynth silentSynth).1 rfl rfl 220 ⟨1/100⟩ (1/2),
   (synthesis_deterministic demoSynth demoSynth).2.2 rfl rfl rfl ⟨0⟩ ⟨.UP, ⟨1/50⟩⟩ none⟩

/-! ## C1: the generator implements the spec's recurrence -/

lemma mod_succ_mod (j L : ℕ) : (j % L + 1) % L = (j + 1) % L := by
  conv_rhs => rw [Nat.add_mod]
  rw [Nat.add_mod (j % L) 1, Nat.mod_mod_of_dvd _ dvd_rfl]

lemma ksStream_eq_ksSpec (L : ℕ) (b0 : ℕ → ℚ) (k : ℚ) :
    ∀ (n j0 : ℕ),
      ksStream L (ksSpecBuf L b0 k j0) k (j0 % L) n =
        (List.range n).map (fun m => ksSpecOut L b0 k (j0 + m)) := by
  intro n
  induction n with
  | zero => intro j0; rfl
  | succ n ih =>
    intro j0
    rw [List.range_succ_eq_map, List.map_cons, List.map_map]
    show (ksSpecBuf L b0 k j0 (j0 % L)) :: _ = ksSpecOut L b0 k (j0 + 0) :: _
    congr 1
    have hbuf :
        (fun m => if m = j0 % L then
            (ksSpecBuf L b0 k j0 (j0 % L) + ksSpecBuf L b0 k j0 ((j0 % L + 1) % L)) * k
          else ksSpecBuf L b0 k j0 m) = ksSpecBuf L b0 k (j0 + 1) := by
      funext m
      simp only [ksSpecBuf]
      rcases eq_or_ne m (j0 % L) with h | h
      · simp [h, mul_comm]
      · simp [h]
    calc ksStream L _ k ((j0 % L + 1) % L) n
        = ksStream L (ksSpecBuf L b0 k (j0 + 1)) k ((j0 + 1) % L) n := by
          rw [hbuf, mod_succ_mod]
      _ = (List.range n).map (fun m => ksSpecOut L b0 k (j0 + 1 + m)) := ih (j0 + 1)
      _ = (List.range n).map (fun m => ksSpecOut L b0 k (j0 + (m + 1))) := by
          apply List.map_congr_left
          intro m _
          ring_nf

lemma ksStream_start_eq (L : ℕ) (b0 : ℕ → ℚ) (k : ℚ) (n : ℕ) :
    ksStream L b0 k 0 n = (List.range n).map (fun m => ksSpecOut L b0 k m) := by
  have h := ksStream_eq_ksSpec L b0 k n 0
  rw [Nat.zero_mod] at h
  simpa [ksSpecBuf] using h

/-- C1: for every positive frequency and valid damping, `_vibrate`'s delay
line is the burst generator's output for exactly `L = round(sampling_rate /
frequency)` samples (the rounded count is nonnegative, so no truncation
happens in the conversion), and the raw feedback output is step for step the
spec's recurrence: step `j` emits the current buffer value at index `j % L`,
after which `buffer[j % L]` is overwritten with
`damping * (buffer[j % L] + buffer[(j % L + 1) % L])`. -/
theorem vibrate_feedback_recurrence (syn : Synthesiser) (frequency damping : ℚ)
    (n : ℕ) (hf : 0 < frequency) (hk : 0 < damping ∧ damping ≤ 1/2) :
    0 ≤ pyRound ((syn.sampling_rate : ℚ) / frequency) ∧
    (syn.burst_generator (pyRound ((syn.sampling_rate : ℚ) / frequency)).toNat
        syn.sampling_rate).length =
      (pyRound ((syn.sampling_rate : ℚ) / frequency)).toNat ∧
    syn.feedback_raw frequency damping n =
      (List.range n).map
        (fun m => ksSpecOut (pyRound ((syn.sampling_rate : ℚ) / frequency)).toNat
          (fun i => (syn.burst_generator
              (pyRound ((syn.sampling_rate : ℚ) / frequency)).toNat
              syn.sampling_rate).getD i 0)
          damping m) := by
  refine ⟨?_, syn.burst_len _ _, ?_⟩
  · have hq : (0 : ℚ) ≤ (syn.sampling_rate : ℚ) / frequency :=
      div_nonneg (by positivity) hf.le
    have hfl : 0 ≤ ⌊(syn.sampling_rate : ℚ) / frequency⌋ := Int.floor_nonneg.mpr hq
    unfold pyRound
    split
    · exact hfl
    · split
      · omega
      · split
        · exact hfl
        · omega
  · unfold Synthesiser.feedback_raw
    exact ksStream_start_eq _ _ _ n

/-- Witness for C1 at the constant-burst synthesiser, frequency `220`,
damping `1/2` and three recurrence steps. -/
theorem vibrate_feedback_recurrence_witness :
    0 ≤ pyRound ((demoSynth.sampling_rate : ℚ) / 220) ∧
    (demoSynth.burst_generator (pyRound ((demoSynth.sampling_rate : ℚ) / 220)).toNat
        demoSynth.sampling_rate).length =
      (pyRound ((demoSynth.sampling_rate : ℚ) / 220)).toNat ∧
    demoSynth.feedback_raw 220 (1/2) 3 =
      (List.range 3).map
        (fun m => ksSpecOut (pyRound ((demoSynth.sampling_rate : ℚ) / 220)).toNat
          (fun i => (demoSynth.burst_generator
              (pyRound ((demoSynth.sampling_rate : ℚ) / 220)).toNat
              demoSynth.sampling_rate).getD i 0)
          (1/2) m) :=
  vibrate_feedback_recurrence demoSynth 220 (1/2) 3 (by norm_num)
    ⟨by norm_num, by norm_num⟩

/-! ## C8: the signal never grows -/

lemma peakAbs_nonneg (xs : List ℚ) : 0 ≤ peakAbs xs := by
  induction xs with
  | nil => exact le_refl 0
  | cons y ys ih =>
    simp only [peakAbs, List.map_cons, List.foldr_cons]
    exact le_max_of_le_right ih

lemma abs_le_peakAbs {xs : List ℚ} {x : ℚ} (hx : x ∈ xs) : |x| ≤ peakAbs xs := by
  induction xs with
  | nil => cases hx
  | cons y ys ih =>
    simp only [peakAbs, List.map_cons, List.foldr_cons]
    rcases List.mem_cons.mp hx with rfl | h
    · exact le_max_left _ _
    · exact le_max_of_le_right (ih h)

lemma getD_abs_le_peakAbs (xs : List ℚ) (m : ℕ) (hm : m < xs.length) :
    |xs.getD m 0| ≤ peakAbs xs := by
  have hmem : xs.getD m 0 ∈ xs := by
    rw [List.getD_eq_getElem?_getD, List.getElem?_eq_getElem hm]
    exact List.getElem_mem hm
  exact abs_le_peakAbs hmem

lemma damped_sum_bound {k x y M : ℚ} (hk0 : 0 ≤ k) (hk : k ≤ 1/2)
    (hx : |x| ≤ M) (hy : |y| ≤ M) : |k * (x + y)| ≤ M := by
  have hM : 0 ≤ M := le_trans (abs_nonneg x) hx
  have h1 : |k * (x + y)| = k * |x + y| := by
    rw [abs_mul, abs_of_nonneg hk0]
  have h2 : |x + y| ≤ M + M := le_trans (abs_add x y) (add_le_add hx hy)
  calc |k * (x + y)| = k * |x + y| := h1
    _ ≤ k * (M + M) := mul_le_mul_of_nonneg_left h2 hk0
    _ ≤ (1/2) * (M + M) := mul_le_mul_of_nonneg_right hk (by linarith)
    _ = M := by ring

lemma ksSpecBuf_bound_from (L : ℕ) (b0 : ℕ → ℚ) (k M : ℚ) (hL : 0 < L) (hk0 : 0 ≤ k)
    (hk : k ≤ 1/2) (j : ℕ) (h0 : ∀ m < L, |ksSpecBuf L b0 k j m| ≤ M) :
    ∀ j', j ≤ j' → ∀ m < L, |ksSpecBuf L b0 k j' m| ≤ M := by
  intro j'
  induction j' with
  | zero =>
    intro hj
    exact Nat.le_zero.mp hj ▸ h0
  | succ j' ih =>
    intro hj m hm
    rcases Nat.lt_or_ge j (j' + 1) with hlt | hge
    · have hprev := ih (Nat.lt_succ_iff.mp hlt)
      simp only [ksSpecBuf]
      rcases eq_or_ne m (j' % L) with h | h
      · rw [if_pos h]
        exact damped_sum_bound hk0 hk (hprev _ (Nat.mod_lt _ hL)) (hprev _ (Nat.mod_lt _ hL))
      · rw [if_neg h]
        exact hprev m hm
    · have hj2 : j = j' + 1 := le_antisymm hj hge
      exact hj2 ▸ h0 m hm

lemma ksSpecBuf_bound (L : ℕ) (b0 : ℕ → ℚ) (k M : ℚ) (hL : 0 < L) (hk0 : 0 ≤ k)
    (hk : k ≤ 1/2) (h0 : ∀ m < L, |b0 m| ≤ M) :
    ∀ j, ∀ m < L, |ksSpecBuf L b0 k j m| ≤ M :=
  fun j => ksSpecBuf_bound_from L b0 k M hL hk0 hk 0 h0 j (Nat.zero_le j)

/-- C8: for damping `0 < k ≤ 0.5` the ring buffer's maximum magnitude never
increases across recurrence steps — any bound on every cell at step `j` still
bounds every cell at every later step `j'` — and hence every raw output
sample of the feedback loop is bounded by the initial burst's peak: the
signal never grows. -/
theorem vibrate_signal_never_grows (syn : Synthesiser) (frequency damping : ℚ)
    (n : ℕ) (hk0 : 0 < damping) (hk : damping ≤ 1/2)
    (hL : 0 < (pyRound ((syn.sampling_rate : ℚ) / frequency)).toNat) :
    (∀ (M : ℚ) (j j' : ℕ), j ≤ j' →
      (∀ m < (pyRound ((syn.sampling_rate : ℚ) / frequency)).toNat,
        |ksSpecBuf (pyRound ((syn.sampling_rate : ℚ) / frequency)).toNat
            (fun i => (syn.burst_generator
                (pyRound ((syn.sampling_rate : ℚ) / frequency)).toNat
                syn.sampling_rate).getD i 0) damping j m| ≤ M) →
      ∀ m < (pyRound ((syn.sampling_rate : ℚ) / frequency)).toNat,
        |ksSpecBuf (pyRound ((syn.sampling_rate : ℚ) / frequency)).toNat
            (fun i => (syn.burst_generator
                (pyRound ((syn.sampling_rate : ℚ) / frequency)).toNat
                syn.sampling_rate).getD i 0) damping j' m| ≤ M) ∧
    ∀ y ∈ syn.feedback_raw frequency damping n,
      |y| ≤ peakAbs (syn.burst_generator
        (pyRound ((syn.sampling_rate : ℚ) / frequency)).toNat syn.sampling_rate) := by
  have hinv := ksSpecBuf_bound (pyRound ((syn.sampling_rate : ℚ) / frequency)).toNat
    (fun i => (syn.burst_generator
        (pyRound ((syn.sampling_rate : ℚ) / frequency)).toNat syn.sampling_rate).getD i 0)
    damping
    (peakAbs (syn.burst_generator
      (pyRound ((syn.sampling_rate : ℚ) / frequency)).toNat syn.sampling_rate))
    hL hk0.le hk
    (fun m hm => getD_abs_le_peakAbs _ m (by rw [syn.burst_len]; exact hm))
  refine ⟨?_, ?_⟩
  · intro M j j' hjj h0
    exact ksSpecBuf_bound_from _ _ damping M hL hk0.le hk j h0 j' hjj
  intro y hy
  unfold Synthesiser.feedback_raw at hy
  dsimp only at hy
  rw [ksStream_start_eq] at hy
  simp only [List.mem_map] at hy
  obtain ⟨m, _, rfl⟩ := hy
  exact hinv m _ (Nat.mod_lt _ hL)

/-- Witness for C8 at the constant-burst synthesiser, frequency `220`
(delay line of 200 cells), damping `1/2`, three output samples: the first
emitted sample is bounded by the burst's peak. -/
theorem vibrate_signal_never_grows_witness :
    |(demoSynth.feedback_raw 220 (1/2) 3).getD 0 0| ≤
      peakAbs (demoSynth.burst_generator
        (pyRound ((demoSynth.sampling_rate : ℚ) / 220)).toNat demoSynth.sampling_rate) :=
  (vibrate_signal_never_grows demoSynth 220 (1/2) 3 (by norm_num) (by norm_num)
    (by norm_num [pyRound, demoSynth])).2 _
    (by
      have h : (demoSynth.feedback_raw 220 (1/2) 3).length = 3 :=
        feedback_raw_length demoSynth 220 (1/2) 3
      rw [List.getD_eq_getElem _ _ (by rw [h]; omega)]
      exact List.getElem_mem _)

/-! ## C4: output length and post-processing order -/

/-- C4 counterexample: two positive-input calls on which `_vibrate` raises
instead of returning a waveform of the requested length.  With frequency
`100000 > 2 * 44100` the delay line rounds to zero samples, so `np.fromiter`
finds the generator exhausted ("iterator too short", a `ValueError`); with
duration `10⁻⁶ s` the requested sample count rounds to zero and the empty
array reaches `normalise`, whose empty-max reduction raises `ValueError`. -/
theorem vibrate_length_counterexample :
    (0 : ℚ) < 100000 ∧ (0 : ℚ) < (Time.mk (1/100)).seconds ∧
    demoSynth.«_vibrate» 100000 ⟨1/100⟩ (1/2) = .error .valueError ∧
    (0 : ℚ) < 220 ∧ (0 : ℚ) < (Time.mk (1/1000000)).seconds ∧
    demoSynth.«_vibrate» 220 ⟨1/1000000⟩ (1/2) = .error .valueError := by
  refine ⟨by norm_num, by norm_num, ?_, by norm_num, by norm_num, ?_⟩ <;>
    · unfold Synthesiser.«_vibrate»
      norm_num [Time.get_num_samples, pyRound, normalise, remove_dc, demoSynth]

/-- C4 (amended: the positive frequency must also give a nonzero delay line,
`round(sampling_rate / frequency) ≥ 1`, and the positive duration a nonzero
sample count, `N ≥ 1`): `_vibrate` then returns a waveform of length exactly
`N = duration.get_num_samples(sampling_rate)`, and that waveform is
`normalise(remove_dc(raw))` for the untouched recurrence output `raw` — DC
removal first, normalisation second, each exactly once. -/
theorem vibrate_length_postprocessing (syn : Synthesiser) (frequency : ℚ)
    (duration : Time) (damping : ℚ) (hk : 0 < damping ∧ damping ≤ 1/2)
    (hL : 0 < pyRound ((syn.sampling_rate : ℚ) / frequency))
    (hN : 0 < duration.get_num_samples syn.sampling_rate) :
    syn.«_vibrate» frequency duration damping =
      normalise (remove_dc (syn.feedback_raw frequency damping
        (duration.get_num_samples syn.sampling_rate).toNat)) ∧
    ∃ out, syn.«_vibrate» frequency duration damping = .ok out ∧
      (out.length : ℤ) = duration.get_num_samples syn.sampling_rate := by
  have hf0 : frequency ≠ 0 := by
    rintro rfl
    rw [div_zero] at hL
    norm_num [pyRound] at hL
  have h1 : syn.«_vibrate» frequency duration damping =
      normalise (remove_dc (syn.feedback_raw frequency damping
        (duration.get_num_samples syn.sampling_rate).toNat)) := by
    unfold Synthesiser.«_vibrate»
    rw [if_neg (not_not_intro hk)]
    dsimp only
    rw [if_neg (by omega), if_neg hf0, if_neg (by omega), if_neg (by omega),
      if_neg (by omega)]
  refine ⟨h1, ?_⟩
  have hraw : (remove_dc (syn.feedback_raw frequency damping
      (duration.get_num_samples syn.sampling_rate).toNat)).length =
      (duration.get_num_samples syn.sampling_rate).toNat := by
    rw [remove_dc_length, feedback_raw_length]
  have hne : remove_dc (syn.feedback_raw frequency damping
      (duration.get_num_samples syn.sampling_rate).toNat) ≠ [] := by
    intro hcon
    rw [hcon] at hraw
    simp only [List.length_nil] at hraw
    omega
  refine ⟨_, h1.trans (normalise_ok_of_ne_nil hne), ?_⟩
  rw [List.length_map, hraw, Int.toNat_of_nonneg hN.le]

/-- Witness for C4 at the constant-burst synthesiser: frequency `220`
(delay line 200), duration `0.01 s` (441 samples), damping `1/2`. -/
theorem vibrate_length_postprocessing_witness :
    demoSynth.«_vibrate» 220 ⟨1/100⟩ (1/2) =
      normalise (remove_dc (demoSynth.feedback_raw 220 (1/2)
        ((Time.mk (1/100)).get_num_samples demoSynth.sampling_rate).toNat)) ∧
    ∃ out, demoSynth.«_vibrate» 220 ⟨1/100⟩ (1/2) = .ok out ∧
      (out.length : ℤ) = (Time.mk (1/100)).get_num_samples demoSynth.sampling_rate :=
  vibrate_length_postprocessing demoSynth 220 ⟨1/100⟩ (1/2)
    ⟨by norm_num, by norm_num⟩
    (by norm_num [pyRound, demoSynth])
    (by norm_num [Time.get_num_samples, pyRound, demoSynth])

/-! ## C5: the composition in `strum_strings` -/

/-- C5: `strum_strings` substitutes the instrument's default vibration when
`vibration` is `None`; it selects `instrument.upstroke` when the velocity
direction is UP and `instrument.downstroke` otherwise; it synthesizes one
waveform per pitch of the stroke, in stroke order, passing that pitch's
frequency, the resolved vibration duration and the instrument's damping; and
it returns the overlay of those waveforms with `velocity.delay`. -/
theorem strum_strings_composition (syn : Synthesiser) (chord : Chord)
    (velocity : Velocity) :
    (syn.strum_strings chord velocity none =
      syn.strum_strings chord velocity (some syn.instrument.vibration)) ∧
    (∀ vib : Time, velocity.direction = .UP →
      syn.strum_strings chord velocity (some vib) =
        ((syn.instrument.upstroke chord).mapM fun pitch =>
            syn.«_vibrate» pitch.frequency vib syn.instrument.damping) >>=
          fun sounds => syn.«_overlay» sounds velocity.delay) ∧
    (∀ vib : Time, velocity.direction = .DOWN →
      syn.strum_strings chord velocity (some vib) =
        ((syn.instrument.downstroke chord).mapM fun pitch =>
            syn.«_vibrate» pitch.frequency vib syn.instrument.damping) >>=
          fun sounds => syn.«_overlay» sounds velocity.delay) := by
  obtain ⟨dir, delay⟩ := velocity
  refine ⟨rfl, ?_, ?_⟩
  · rintro vib rfl
    rfl
  · rintro vib rfl
    rfl

/-- Witness for C5: an UP strum at the constant-burst synthesiser, with the
default and with an explicit vibration duration. -/
theorem strum_strings_composition_witness :
    demoSynth.strum_strings ⟨0⟩ ⟨.UP, ⟨1/50⟩⟩ none =
      demoSynth.strum_strings ⟨0⟩ ⟨.UP, ⟨1/50⟩⟩ (some demoSynth.instrument.vibration) ∧
    demoSynth.strum_strings ⟨0⟩ ⟨.UP, ⟨1/50⟩⟩ (some ⟨1/100⟩) =
      ((demoSynth.instrument.upstroke ⟨0⟩).mapM fun pitch =>
          demoSynth.«_vibrate» pitch.frequency ⟨1/100⟩ demoSynth.instrument.damping) >>=
        fun sounds => demoSynth.«_overlay» sounds (Time.mk (1/50)) :=
  ⟨(strum_strings_composition demoSynth ⟨0⟩ ⟨.UP, ⟨1/50⟩⟩).1,
   (strum_strings_composition demoSynth ⟨0⟩ ⟨.UP, ⟨1/50⟩⟩).2.1 ⟨1/100⟩ rfl⟩

/-! ## C2 and C10: the overlay -/

lemma enum_eq_enumFrom {α : Type} (l : List α) : l.enum = l.enumFrom 0 := rfl

lemma foldl_max_init (xs : List ℤ) : ∀ a : ℤ, a ≤ xs.foldl max a := by
  induction xs with
  | nil => intro a; exact le_refl a
  | cons y ys ih => intro a; exact le_trans (le_max_left a y) (ih (max a y))

lemma foldl_max_mem_le (xs : List ℤ) : ∀ (a x : ℤ), x ∈ xs → x ≤ xs.foldl max a := by
  induction xs with
  | nil => intro a x hx; cases hx
  | cons y ys ih =>
    intro a x hx
    rcases List.mem_cons.mp hx with rfl | h
    · exact le_trans (le_max_right a x) (foldl_max_init ys (max a x))
    · exact ih (max a y) x h

lemma foldl_max_cases (xs : List ℤ) : ∀ a : ℤ, xs.foldl max a = a ∨ xs.foldl max a ∈ xs := by
  induction xs with
  | nil => exact fun a => Or.inl rfl
  | cons y ys ih =>
    intro a
    rw [List.foldl_cons]
    rcases ih (max a y) with h | h
    · rw [h]
      rcases max_choice a y with h2 | h2
      · exact Or.inl h2
      · exact Or.inr (by rw [h2]; exact List.mem_cons_self y ys)
    · exact Or.inr (List.mem_cons_of_mem y h)

lemma getD_range_map (n : ℕ) (f : ℕ → ℚ) (j : ℕ) :
    ((List.range n).map f).getD j 0 = if j < n then f j else 0 := by
  by_cases h : j < n
  · rw [if_pos h, List.getD_eq_getElem _ _ (by simpa using h)]
    simp
  · rw [if_neg h, List.getD_eq_default _ _ (by simpa using not_lt.mp h)]

lemma getD_replicate_zero (n j : ℕ) : (List.replicate n (0 : ℚ)).getD j 0 = 0 := by
  by_cases h : j < n
  · rw [List.getD_eq_getElem _ _ (by simpa using h)]
    simp
  · rw [List.getD_eq_default _ _ (by simpa using not_lt.mp h)]

lemma pySliceAdd_ok (acc s : List ℚ) (a : ℤ) (ha : 0 ≤ a)
    (hfit : a + (s.length : ℤ) ≤ (acc.length : ℤ)) :
    pySliceAdd acc a (a + (s.length : ℤ)) s =
      .ok ((List.range acc.length).map fun j =>
        acc.getD j 0 +
          if a.toNat ≤ j ∧ j < a.toNat + s.length then s.getD (j - a.toNat) 0 else 0) := by
  have h1 : normIdx a acc.length = a.toNat := by
    unfold normIdx
    rw [if_neg (not_lt.mpr ha)]
    omega
  have h2 : normIdx (a + (s.length : ℤ)) acc.length = a.toNat + s.length := by
    unfold normIdx
    rw [if_neg (by omega)]
    omega
  unfold pySliceAdd
  rw [h1, h2, if_pos (by omega)]

lemma foldlM_sliceAdd (d : ℕ) :
    ∀ (rest : List (List ℚ)) (i0 : ℕ) (acc : List ℚ),
      (∀ p ∈ rest.enumFrom i0, p.1 * d + p.2.length ≤ acc.length) →
      ∃ out,
        (rest.enumFrom i0).foldlM
            (fun samples p =>
              pySliceAdd samples ((p.1 : ℤ) * (d : ℤ))
                ((p.1 : ℤ) * (d : ℤ) + (p.2.length : ℤ)) p.2) acc
          = .ok out ∧
        out.length = acc.length ∧
        ∀ j, out.getD j 0 =
          acc.getD j 0 +
            ((rest.enumFrom i0).map fun p => stringContrib d p.1 p.2 j).sum := by
  intro rest
  induction rest with
  | nil =>
    intro i0 acc hfit
    exact ⟨acc, rfl, rfl, fun j => by simp [List.enumFrom]⟩
  | cons s rest ih =>
    intro i0 acc hfit
    have hhead : i0 * d + s.length ≤ acc.length := by
      apply hfit (i0, s)
      rw [List.enumFrom_cons]
      exact List.mem_cons_self _ _
    have ha : (0 : ℤ) ≤ (i0 : ℤ) * (d : ℤ) := by positivity
    have htn : ((i0 : ℤ) * (d : ℤ)).toNat = i0 * d := by
      rw [← Nat.cast_mul, Int.toNat_natCast]
    have hfitZ : (i0 : ℤ) * (d : ℤ) + (s.length : ℤ) ≤ (acc.length : ℤ) := by
      rw [← Nat.cast_mul, ← Nat.cast_add]
      exact_mod_cast hhead
    have hstep := pySliceAdd_ok acc s ((i0 : ℤ) * (d : ℤ)) ha hfitZ
    rw [htn] at hstep
    obtain ⟨out, hout, hlen, hval⟩ := ih (i0 + 1)
      ((List.range acc.length).map fun j =>
        acc.getD j 0 +
          if i0 * d ≤ j ∧ j < i0 * d + s.length then s.getD (j - (i0 * d)) 0 else 0)
      (by
        intro p hp
        rw [List.length_map, List.length_range]
        apply hfit p
        rw [List.enumFrom_cons]
        exact List.mem_cons_of_mem _ hp)
    refine ⟨out, ?_, ?_, ?_⟩
    · rw [List.enumFrom_cons, List.foldlM_cons, hstep]
      exact hout
    · rw [hlen, List.length_map, List.length_range]
    · intro j
      rw [List.enumFrom_cons, List.map_cons, List.sum_cons, hval j, getD_range_map]
      by_cases hj : j < acc.length
      · rw [if_pos hj]
        unfold stringContrib
        ring
      · rw [if_neg hj]
        have hstop : i0 * d + s.length ≤ j := le_trans hhead (not_lt.mp hj)
        have hcontrib : stringContrib d i0 s j = 0 := by
          unfold stringContrib
          rw [if_neg (by omega)]
        rw [List.getD_eq_default _ _ (not_lt.mp hj), hcontrib]
        ring

lemma overlay_ok_characterization (syn : Synthesiser) (sounds : List (List ℚ))
    (delay : Time) (hne : sounds ≠ [])
    (hd : 0 ≤ delay.get_num_samples syn.sampling_rate) :
    ∃ out, syn.«_overlay» sounds delay = .ok out ∧
      ((out.length : ℤ) ∈ sounds.enum.map
        (fun p => (p.1 : ℤ) * delay.get_num_samples syn.sampling_rate + (p.2.length : ℤ))) ∧
      (∀ y ∈ sounds.enum.map
        (fun p => (p.1 : ℤ) * delay.get_num_samples syn.sampling_rate + (p.2.length : ℤ)),
        y ≤ (out.length : ℤ)) ∧
      ∀ j, out.getD j 0 =
        overlayAt sounds (delay.get_num_samples syn.sampling_rate).toNat j := by
  obtain ⟨dn, hdn⟩ : ∃ dn : ℕ, delay.get_num_samples syn.sampling_rate = (dn : ℤ) :=
    ⟨_, (Int.toNat_of_nonneg hd).symm⟩
  rw [hdn]
  simp only [Int.toNat_natCast]
  obtain ⟨s0, rest, rfl⟩ := List.exists_cons_of_ne_nil hne
  set f : ℕ × List ℚ → ℤ := fun p => (p.1 : ℤ) * (dn : ℤ) + (p.2.length : ℤ) with hf
  have hcons : ((s0 :: rest).enum).map f =
      ((s0.length : ℤ)) :: ((rest.enumFrom 1).map f) := by
    rw [List.enum_cons, List.map_cons, hf]
    norm_num
  set num : ℤ := ((rest.enumFrom 1).map f).foldl max ((s0.length : ℤ)) with hnum
  have hnum0 : (0 : ℤ) ≤ num :=
    le_trans (Int.ofNat_nonneg _) (foldl_max_init _ _)
  have hmem : num ∈ ((s0 :: rest).enum).map f := by
    rw [hcons]
    rcases foldl_max_cases ((rest.enumFrom 1).map f) ((s0.length : ℤ)) with h | h
    · rw [hnum, h]
      exact List.mem_cons_self _ _
    · exact List.mem_cons_of_mem _ h
  have hub : ∀ y ∈ ((s0 :: rest).enum).map f, y ≤ num := by
    rw [hcons]
    intro y hy
    rcases List.mem_cons.mp hy with rfl | h
    · exact foldl_max_init _ _
    · exact foldl_max_mem_le _ _ _ h
  have hfit : ∀ p ∈ (s0 :: rest).enumFrom 0,
      p.1 * dn + p.2.length ≤ (List.replicate num.toNat (0 : ℚ)).length := by
    intro p hp
    rw [List.length_replicate]
    have h1 : f p ≤ num := by
      apply hub
      apply List.mem_map_of_mem f
      rw [enum_eq_enumFrom]
      exact hp
    have h2 : f p = ((p.1 * dn + p.2.length : ℕ) : ℤ) := by
      rw [hf]
      push_cast
      ring
    omega
  obtain ⟨out, hout, hlen, hval⟩ :=
    foldlM_sliceAdd dn (s0 :: rest) 0 (List.replicate num.toNat 0) hfit
  have hlen' : out.length = num.toNat := by
    rw [hlen, List.length_replicate]
  have hcast : (out.length : ℤ) = num := by
    rw [hlen', Int.toNat_of_nonneg hnum0]
  refine ⟨out, ?_, ?_, ?_, ?_⟩
  · unfold Synthesiser.«_overlay»
    rw [hdn, ← hf, hcons]
    show (if num < 0 then Except.error Fault.valueError else _) = Except.ok out
    rw [if_neg (not_lt.mpr hnum0)]
    rw [enum_eq_enumFrom]
    exact hout
  · rw [hcast]
    exact hmem
  · intro y hy
    rw [hcast]
    exact hub y hy
  · intro j
    rw [hval j, getD_replicate_zero, zero_add]
    unfold overlayAt
    rw [enum_eq_enumFrom]

/-- C2 counterexample: with a negative per-string offset (`delay` of
`-1/44100 s`, i.e. `d = -1`) and two two-sample waveforms, Python's negative
slice index wraps around: string `1`'s slice `samples[-1 : 1]` normalizes to
the empty slice `samples[1 : 1]`, and adding a length-2 array into it raises
a broadcast `ValueError` — `_overlay` returns no waveform at all. -/
theorem overlay_negative_delay_counterexample :
    demoSynth.«_overlay» [[1, 1], [1, 1]] ⟨-(1/44100)⟩ = .error .valueError := by
  have hdn : (Time.mk (-(1/44100))).get_num_samples demoSynth.sampling_rate = -1 := by
    norm_num [Time.get_num_samples, pyRound, demoSynth]
  have h1 : pySliceAdd [0, 0] (0 : ℤ) (2 : ℤ) [1, 1] = .ok [1, 1] := by
    unfold pySliceAdd normIdx
    norm_num [show ((2 : ℤ)).toNat = 2 from rfl, List.range_succ]
  have h2 : pySliceAdd [1, 1] (-1 : ℤ) (1 : ℤ) [1, 1] = .error .valueError := by
    unfold pySliceAdd normIdx
    norm_num
  unfold Synthesiser.«_overlay»
  rw [hdn]
  simp only [List.enum_cons, List.enumFrom_cons, List.enumFrom_nil, List.map_cons,
    List.map_nil, pyMax]
  norm_num [max_def, List.replicate, List.foldlM_cons, List.foldlM_nil]
  rw [h1]
  show pySliceAdd [1, 1] (-1 : ℤ) (1 : ℤ) [1, 1] = Except.error Fault.valueError
  exact h2

/-- C2 (amended: for every delay whose per-string sample offset `d` is
nonnegative — a negative `d` makes the numpy slice assignment wrap and raise):
`_overlay` succeeds on every non-empty `sounds`, its output length is the true
maximum over all `i` of `i*d + len(sounds[i])` (an upper bound that is
attained), and each output sample is the sum of all strings' contributions at
offsets `i*d` over an all-zero initial buffer — additive overlay, not
replacement, so a later-starting shorter string never truncates an earlier
longer one. -/
theorem overlay_true_max_additive (syn : Synthesiser) (sounds : List (List ℚ))
    (delay : Time) (hne : sounds ≠ [])
    (hd : 0 ≤ delay.get_num_samples syn.sampling_rate) :
    ∃ out, syn.«_overlay» sounds delay = .ok out ∧
      (∀ p ∈ sounds.enum,
        (p.1 : ℤ) * delay.get_num_samples syn.sampling_rate + (p.2.length : ℤ) ≤
          (out.length : ℤ)) ∧
      (∃ p ∈ sounds.enum,
        (out.length : ℤ) =
          (p.1 : ℤ) * delay.get_num_samples syn.sampling_rate + (p.2.length : ℤ)) ∧
      ∀ j, out.getD j 0 =
        overlayAt sounds (delay.get_num_samples syn.sampling_rate).toNat j := by
  obtain ⟨out, h1, h2, h3, h4⟩ := overlay_ok_characterization syn sounds delay hne hd
  refine ⟨out, h1, ?_, ?_, h4⟩
  · intro p hp
    exact h3 _ (List.mem_map_of_mem _ hp)
  · obtain ⟨p, hp, hval⟩ := List.mem_map.mp h2
    exact ⟨p, hp, hval.symm⟩

/-- Witness for C2 (amended) on a non-monotonic pair of waveforms: the first
string is longer than the second string's offset plus length, so the first
string's extent dominates the output length. -/
theorem overlay_true_max_additive_witness :
    ∃ out, demoSynth.«_overlay» [[1, 2, 3, 4, 5], [6]] ⟨1/44100⟩ = .ok out ∧
      (∀ p ∈ ([[1, 2, 3, 4, 5], [6]] : List (List ℚ)).enum,
        (p.1 : ℤ) * (Time.mk (1/44100)).get_num_samples demoSynth.sampling_rate +
          (p.2.length : ℤ) ≤ (out.length : ℤ)) ∧
      (∃ p ∈ ([[1, 2, 3, 4, 5], [6]] : List (List ℚ)).enum,
        (out.length : ℤ) =
          (p.1 : ℤ) * (Time.mk (1/44100)).get_num_samples demoSynth.sampling_rate +
            (p.2.length : ℤ)) ∧
      ∀ j, out.getD j 0 =
        overlayAt [[1, 2, 3, 4, 5], [6]]
          ((Time.mk (1/44100)).get_num_samples demoSynth.sampling_rate).toNat j :=
  overlay_true_max_additive demoSynth [[1, 2, 3, 4, 5], [6]] ⟨1/44100⟩
    (by simp)
    (by norm_num [Time.get_num_samples, pyRound, demoSynth])

lemma foldr_max_le (l : List ℕ) (c : ℕ) (h : ∀ x ∈ l, x ≤ c) : l.foldr max 0 ≤ c := by
  induction l with
  | nil => exact Nat.zero_le c
  | cons y ys ih =>
    simp only [List.foldr_cons]
    exact max_le (h y (List.mem_cons_self y ys))
      (ih fun x hx => h x (List.mem_cons_of_mem y hx))

lemma le_foldr_max (l : List ℕ) (x : ℕ) (hx : x ∈ l) : x ≤ l.foldr max 0 := by
  induction l with
  | nil => cases hx
  | cons y ys ih =>
    simp only [List.foldr_cons]
    rcases List.mem_cons.mp hx with rfl | h
    · exact le_max_left _ _
    · exact le_max_of_le_right (ih h)

lemma foldr_max_perm {l l' : List ℕ} (h : l.Perm l') :
    l.foldr max 0 = l'.foldr max 0 := by
  induction h with
  | nil => rfl
  | cons x _ ih => simp only [List.foldr_cons, ih]
  | swap x y l => simp only [List.foldr_cons]; rw [← max_assoc, max_comm y x, max_assoc]
  | trans _ _ ih1 ih2 => exact ih1.trans ih2

lemma stringContrib_zero (i : ℕ) (s : List ℚ) (j : ℕ) :
    stringContrib 0 i s j = s.getD j 0 := by
  unfold stringContrib
  rw [Nat.mul_zero]
  by_cases h : j < s.length
  · rw [if_pos ⟨Nat.zero_le j, by omega⟩, Nat.sub_zero]
  · rw [if_neg (by omega)]
    exact (List.getD_eq_default _ _ (not_lt.mp h)).symm

lemma overlayAt_zero (sounds : List (List ℚ)) (j : ℕ) :
    overlayAt sounds 0 j = (sounds.map fun s => s.getD j 0).sum := by
  unfold overlayAt
  have h1 : (sounds.enum.map fun p => stringContrib 0 p.1 p.2 j) =
      sounds.enum.map ((fun s => s.getD j 0) ∘ Prod.snd) := by
    apply List.map_congr_left
    intro p _
    exact stringContrib_zero p.1 p.2 j
  rw [h1, ← List.map_map, List.enum_map_snd]

/-- C10: with a zero per-string delay, `_overlay` on every non-empty `sounds`
returns the pointwise sum of all the input waveforms, its length is the
maximum input length, and the result is invariant under any permutation of
the input sequence — with `d = 0` the stroke order stops mattering. -/
theorem overlay_zero_delay_perm_invariant (syn : Synthesiser)
    (sounds sounds' : List (List ℚ)) (delay : Time) (hne : sounds ≠ [])
    (hd : delay.get_num_samples syn.sampling_rate = 0)
    (hperm : sounds.Perm sounds') :
    syn.«_overlay» sounds delay = syn.«_overlay» sounds' delay ∧
    ∃ out, syn.«_overlay» sounds delay = .ok out ∧
      out.length = (sounds.map List.length).foldr max 0 ∧
      ∀ j, out.getD j 0 = (sounds.map fun s => s.getD j 0).sum := by
  have key : ∀ ss : List (List ℚ), ss ≠ [] →
      ∃ out, syn.«_overlay» ss delay = .ok out ∧
        out.length = (ss.map List.length).foldr max 0 ∧
        ∀ j, out.getD j 0 = (ss.map fun s => s.getD j 0).sum := by
    intro ss hss
    obtain ⟨out, h1, h2, h3, h4⟩ :=
      overlay_ok_characterization syn ss delay hss (by rw [hd])
    refine ⟨out, h1, ?_, ?_⟩
    · rw [hd] at h2 h3
      simp only [mul_zero, zero_add] at h2 h3
      have hmap2 : ss.map List.length = ss.enum.map fun p => p.2.length := by
        conv_lhs => rw [← List.enum_map_snd ss]
        rw [List.map_map]
        rfl
      obtain ⟨p, hp, hpval⟩ := List.mem_map.mp h2
      have hp2 : p.2.length = out.length := Nat.cast_inj.mp hpval
      apply le_antisymm
      · have hmem2 : out.length ∈ ss.map List.length := by
          rw [hmap2, ← hp2]
          exact List.mem_map_of_mem _ hp
        exact le_foldr_max _ _ hmem2
      · apply foldr_max_le
        intro z hz
        rw [hmap2] at hz
        obtain ⟨q, hq, rfl⟩ := List.mem_map.mp hz
        exact_mod_cast h3 _ (List.mem_map_of_mem _ hq)
    · intro j
      rw [h4 j, hd]
      simp only [Int.toNat_zero]
      exact overlayAt_zero ss j
  obtain ⟨out, h1, hlen, hval⟩ := key sounds hne
  have hne' : sounds' ≠ [] := by
    intro hc
    rw [hc] at hperm
    exact hne hperm.eq_nil
  obtain ⟨out', h1', hlen', hval'⟩ := key sounds' hne'
  have hlenEq : out.length = out'.length := by
    rw [hlen, hlen', foldr_max_perm (hperm.map List.length)]
  have houtEq : out = out' := by
    apply List.ext_getElem hlenEq
    intro i hi1 hi2
    rw [← List.getD_eq_getElem out 0 hi1, ← List.getD_eq_getElem out' 0 hi2,
      hval i, hval' i]
    exact (hperm.map fun s => s.getD i 0).sum_eq
  exact ⟨by rw [h1, h1', houtEq], out, h1, hlen, hval⟩

/-- Witness for C10: swapping two waveforms under a zero delay leaves the
overlay unchanged, and the result is the pointwise sum. -/
theorem overlay_zero_delay_perm_invariant_witness :
    demoSynth.«_overlay» [[1], [2, 3]] ⟨0⟩ = demoSynth.«_overlay» [[2, 3], [1]] ⟨0⟩ ∧
    ∃ out, demoSynth.«_overlay» [[1], [2, 3]] ⟨0⟩ = .ok out ∧
      out.length = (([[1], [2, 3]] : List (List ℚ)).map List.length).foldr max 0 ∧
      ∀ j, out.getD j 0 = (([[1], [2, 3]] : List (List ℚ)).map fun s => s.getD j 0).sum :=
  overlay_zero_delay_perm_invariant demoSynth [[1], [2, 3]] [[2, 3], [1]] ⟨0⟩
    (by simp)
    (by norm_num [Time.get_num_samples, pyRound, demoSynth])
    (List.Perm.swap [2, 3] [1] [])

end Melondy
